import Mathlib

/-!
Verification of the tolerant kernel-version model and kernel inventory scanner
from `toolkit/tools/pkg/imagecustomizerlib/installedkernelcheck.go` (package
`systemdependency` plus the `checkForInstalledKernel` guard).

The external collaborators (filesystem listing, directory-emptiness predicate,
the `uname -r` host query) are modelled as explicit capability parameters, as
the design notes prescribe.  The `versioncompare` package (TolerantVersion,
New, Compare) is not among the sources, so it is modelled from the spec.
-/

/-- Modelled from the spec: the `versioncompare` package is missing from the
sources.  Per the spec, a TolerantVersion is "an ordered sequence of
non-negative integer segments extracted from the leading dot-separated numeric
run of a version string". -/
structure TolerantVersion where
  segments : List Nat
deriving DecidableEq

/-- Comparison of an exhausted left sequence against the remaining right
segments: the left side is all (implicit) zeros. -/
def zerosCmp : List Nat → Ordering
  | [] => .eq
  | y :: ys => if 0 < y then .lt else zerosCmp ys

/-- Modelled from the spec: the `versioncompare.TolerantVersion.Compare`
ordering, on the underlying segment lists.  "Walk both segment sequences
position by position; at each position, treat a missing segment as `0`;
compare integers numerically; the first unequal position determines the
result; if all positions are equal, the versions are equal." -/
def segCompare : List Nat → List Nat → Ordering
  | [], b => zerosCmp b
  | x :: xs, [] => if 0 < x then .gt else segCompare xs []
  | x :: xs, y :: ys => if x < y then .lt else if y < x then .gt else segCompare xs ys

/-- Go's `version.Compare(other)` returns a negative / zero / positive int;
`Ordering` stands for that sign. -/
def TolerantVersion.compare (a b : TolerantVersion) : Ordering :=
  segCompare a.segments b.segments

/-- Splits a character list on `'.'` (the separator used between version
segments). -/
def splitDots : List Char → List (List Char)
  | [] => [[]]
  | c :: rest =>
    if c = '.' then [] :: splitDots rest
    else
      match splitDots rest with
      | [] => [[c]]
      | s :: ss => (c :: s) :: ss

/-- A chunk counts as a numeric segment when it is non-empty and all digits. -/
def chunkIsNumeric (cs : List Char) : Bool :=
  !cs.isEmpty && cs.all Char.isDigit

/-- Decimal value of a digit run. -/
def natOfDigits (cs : List Char) : Nat :=
  cs.foldl (fun n c => n * 10 + (c.toNat - 48)) 0

/-- Modelled from the spec: `versioncompare.New` is missing from the sources.
Per the spec it extracts "the leading dot-separated numeric run of a version
string"; any trailing non-numeric part is discarded. -/
def TolerantVersion.new (s : String) : TolerantVersion :=
  ⟨((splitDots s.data).takeWhile chunkIsNumeric).map natOfDigits⟩

/-- The character class `[a-zA-Z0-9_.\-]` of `kernelVersionRegex`. -/
def isVerChar (c : Char) : Bool :=
  c.isAlpha || c.isDigit || c == '_' || c == '.' || c == '-'

/-- Consumes `\d+\.`: a maximal non-empty digit run followed by a literal dot;
returns the digits and the remainder after the dot. -/
def digitsDot (cs : List Char) : Option (List Char × List Char) :=
  let ds := cs.takeWhile Char.isDigit
  let r := cs.dropWhile Char.isDigit
  if ds.isEmpty then none
  else if r.head? = some '.' then some (ds, r.tail) else none

/-- Consumes a final `\d+`: a maximal non-empty digit run; returns the digits
and the remainder. -/
def digitsEnd (cs : List Char) : Option (List Char × List Char) :=
  let ds := cs.takeWhile Char.isDigit
  if ds.isEmpty then none else some (ds, cs.dropWhile Char.isDigit)

/-- The optional group `([.\-][a-zA-Z0-9_.\-]*)?` anchored by `$`. -/
def matchSuffix : List Char → Bool
  | [] => true
  | c :: rest => (c == '.' || c == '-') && rest.all isVerChar

/-- Matcher for `kernelVersionRegex`, the anchored pattern
`^(\d+\.\d+\.\d+)([.\-][a-zA-Z0-9_.\-]*)?$`; returns capture group 1 on a
match.  The pattern is deterministic: a maximal digit run is never followed by
a digit, and the optional group must start with a non-digit, so greedy
matching without backtracking decides acceptance. -/
def kernelVersionMatch (cs : List Char) : Option (List Char) :=
  match digitsDot cs with
  | none => none
  | some (d1, r1) =>
    match digitsDot r1 with
    | none => none
    | some (d2, r2) =>
      match digitsEnd r2 with
      | none => none
      | some (d3, r3) =>
        if matchSuffix r3 then some (d1 ++ '.' :: (d2 ++ '.' :: d3)) else none

deriving instance DecidableEq for Except

/-- Error from the underlying filesystem capability (`os.ReadDir`,
`file.IsDirEmpty`). -/
structure FsError where
  message : String
deriving DecidableEq

/-- Error from the external-process capability (`shell.Execute`). -/
structure ExecError where
  message : String
deriving DecidableEq

/-- The distinguishable error outcomes of the package.  Each constructor
mirrors one `fmt.Errorf` site; wrapping (`%w`) is modelled by carrying the
wrapped cause. -/
inductive ToolError where
  /-- `failed to parse kernel version (%s)` -/
  | parseFailed (versionString : String)
  /-- `failed to enumerate kernels under (%s):\n%w` -/
  | enumerateKernelsFailed (path : String) (cause : FsError)
  /-- `failed to check if directory (%s) is empty:\n%w` -/
  | dirEmptyCheckFailed (path : String) (cause : FsError)
  /-- `no installed kernels found in image` -/
  | noKernelsInImage
  /-- `no installed kernel found` (the guard's user-facing error) -/
  | noInstalledKernelFound
  /-- `failed to get kernel version using uname:\n%w` around a shell failure -/
  | unameFailed (cause : ExecError)
  /-- `failed to get kernel version using uname:\n%w` around a scan failure,
  in `GetInstalledKernelVersions` -/
  | scanFailed (cause : ToolError)
deriving DecidableEq

/-- The spec's `IOError` kind: a wrapped filesystem-boundary failure. -/
def ToolError.isIOError : ToolError → Bool
  | .enumerateKernelsFailed _ _ => true
  | .dirEmptyCheckFailed _ _ => true
  | _ => false

/-- The spec's `HostQueryError` kind: the host capability could not be
invoked. -/
def ToolError.isHostQueryError : ToolError → Bool
  | .unameFailed _ => true
  | _ => false

/-- `parseKernelVersion`: match against `kernelVersionRegex`, fail when there
is no match, otherwise build a TolerantVersion from capture group 1. -/
def parseKernelVersion (versionString : String) : Except ToolError TolerantVersion :=
  match kernelVersionMatch versionString.data with
  | none => .error (.parseFailed versionString)
  | some group1 => .ok (TolerantVersion.new (String.mk group1))

/-- The filesystem capabilities consumed by the scanner: `os.ReadDir` and
`file.IsDirEmpty`, abstracted over paths as the design notes prescribe. -/
structure Filesystem where
  readDir : String → Except FsError (List String)
  isDirEmpty : String → Except FsError Bool

/-- The loop body of `GetInstalledKernelStringVersions`: walk the entries in
order, drop those whose directory is empty, fail on the first entry whose
emptiness check fails.  `filepath.Join(parent, name)` is modelled as
concatenation with a slash (entry names contain no separators). -/
def filterKernelDirs (parentPath : String) (fs : Filesystem) : List String → Except ToolError (List String)
  | [] => .ok []
  | d :: ds =>
    match fs.isDirEmpty (parentPath ++ "/" ++ d) with
    | .error e => .error (.dirEmptyCheckFailed (parentPath ++ "/" ++ d) e)
    | .ok true => filterKernelDirs parentPath fs ds
    | .ok false => (filterKernelDirs parentPath fs ds).map (fun l => d :: l)

/-- `GetInstalledKernelStringVersions`: list `<rootfs>/lib/modules`, wrap a
listing failure, then filter out empty directories. -/
def GetInstalledKernelStringVersions (rootfs : String) (fs : Filesystem) : Except ToolError (List String) :=
  match fs.readDir (rootfs ++ "/lib/modules") with
  | .error e => .error (.enumerateKernelsFailed (rootfs ++ "/lib/modules") e)
  | .ok kernelDirs => filterKernelDirs (rootfs ++ "/lib/modules") fs kernelDirs

/-- The loop body of `GetInstalledKernelVersions`: parse each string in order,
returning the first parse error unchanged. -/
def parseVersions : List String → Except ToolError (List TolerantVersion)
  | [] => .ok []
  | s :: ss =>
    match parseKernelVersion s with
    | .error e => .error e
    | .ok v => (parseVersions ss).map (fun l => v :: l)

/-- `GetInstalledKernelVersions`: scan, wrap a scan failure, then map every
string through the parser. -/
def GetInstalledKernelVersions (rootfs : String) (fs : Filesystem) : Except ToolError (List TolerantVersion) :=
  match GetInstalledKernelStringVersions rootfs fs with
  | .error e => .error (.scanFailed e)
  | .ok versionStrings => parseVersions versionStrings

/-- The loop body of `GetOldestInstalledKernelVersion`:
`if version.Compare(oldestVersion) < 0 { oldestVersion = version }`. -/
def oldStep (oldestVersion version : TolerantVersion) : TolerantVersion :=
  if version.compare oldestVersion = .lt then version else oldestVersion

/-- `GetOldestInstalledKernelVersion`: fail when the parsed list is empty,
otherwise a linear minimum scan seeded with the first element. -/
def GetOldestInstalledKernelVersion (rootfs : String) (fs : Filesystem) : Except ToolError TolerantVersion :=
  match GetInstalledKernelVersions rootfs fs with
  | .error e => .error e
  | .ok versions =>
    match versions with
    | [] => .error .noKernelsInImage
    | v :: rest => .ok ((v :: rest).foldl oldStep v)

/-- `strings.TrimSpace`: strip leading and trailing whitespace. -/
def trimSpace (s : String) : String :=
  String.mk (((s.data.dropWhile Char.isWhitespace).reverse.dropWhile Char.isWhitespace).reverse)

/-- `GetBuildHostKernelVersion`, with the `shell.Execute("uname", "-r")`
capability passed in as its result: wrap an execution failure, otherwise trim
and parse the output, returning a parse failure unchanged. -/
def GetBuildHostKernelVersion (unameResult : Except ExecError String) : Except ToolError TolerantVersion :=
  match unameResult with
  | .error e => .error (.unameFailed e)
  | .ok stdout =>
    match parseKernelVersion (trimSpace stdout) with
    | .error e => .error e
    | .ok version => .ok version

/-- `checkForInstalledKernel`, with `imageChroot.RootDir()` passed as a
string: propagate a scan error unchanged, fail when no kernels were found,
succeed otherwise. -/
def checkForInstalledKernel (rootDir : String) (fs : Filesystem) : Except ToolError Unit :=
  match GetInstalledKernelStringVersions rootDir fs with
  | .error e => .error e
  | .ok kernels => if kernels.length ≤ 0 then .error .noInstalledKernelFound else .ok ()

/-- A non-empty run of decimal digits — one integer segment. -/
def DigitRun (cs : List Char) : Prop :=
  cs ≠ [] ∧ ∀ c ∈ cs, Char.isDigit c

/-- The optional trailing suffix, stated in the spec's words: either absent,
or a separator (`.` or `-`) followed by letters/digits/dots/dashes/underscores
running to the end. -/
def SuffixOk (rest : List Char) : Prop :=
  rest = [] ∨ ∃ c tail, (c = '.' ∨ c = '-') ∧ rest = c :: tail ∧ ∀ ch ∈ tail, isVerChar ch

/-- The acceptance condition the code implements, in the amended spec's
words: exactly three dot-separated integer segments, then an optional
separator-led suffix to the end of the string. -/
def AmendedGrammar (s : String) : Prop :=
  ∃ d1 d2 d3 rest, DigitRun d1 ∧ DigitRun d2 ∧ DigitRun d3 ∧ SuffixOk rest ∧
    s.data = d1 ++ '.' :: (d2 ++ '.' :: (d3 ++ rest))

/-- Joins segments with dots: the shape of the claimed leading numeric run. -/
def joinDots : List (List Char) → List Char
  | [] => []
  | [a] => a
  | a :: rest => a ++ '.' :: joinDots rest

/-- The acceptance condition claimed by the spec, in its words: one or more
dot-separated integer segments, then an optional separator-led suffix. -/
def ClaimedGrammar (s : String) : Prop :=
  ∃ segs rest, segs ≠ [] ∧ (∀ seg ∈ segs, DigitRun seg) ∧ SuffixOk rest ∧
    s.data = joinDots segs ++ rest

/-- A root with no entries under `/lib/modules`. -/
def fsNoModules : Filesystem :=
  ⟨fun _ => .ok [], fun _ => .ok false⟩

/-- A root with two non-empty kernel directories. -/
def fsTwoKernels : Filesystem :=
  ⟨fun _ => .ok ["6.11.6-200.fc40.x86_64", "5.15.153.1-2.cm2"], fun _ => .ok false⟩

/-- A root with one parsable and one unparsable kernel directory name. -/
def fsBadName : Filesystem :=
  ⟨fun _ => .ok ["6.11.6-200.fc40.x86_64", "fc40"], fun _ => .ok false⟩

/-- A root whose module directory cannot be listed. -/
def fsUnreadable : Filesystem :=
  ⟨fun _ => .error ⟨"permission denied"⟩, fun _ => .ok false⟩

/-- A root with one empty and one non-empty kernel directory. -/
def fsOneEmptyDir : Filesystem :=
  ⟨fun _ => .ok ["6.6.47.1-1.azl3", "5.15.153.1-2.cm2"],
   fun p => .ok (p == "/r/lib/modules/6.6.47.1-1.azl3")⟩

theorem zerosCmp_ne_gt : ∀ b, zerosCmp b ≠ .gt := by
  intro b
  induction b with
  | nil => simp [zerosCmp]
  | cons y ys ih =>
    simp only [zerosCmp]
    split
    · simp
    · exact ih

theorem segCompare_nil_left (b : List Nat) : segCompare [] b = zerosCmp b := rfl

theorem segCompare_nil_right : ∀ b, segCompare b [] = (zerosCmp b).swap := by
  intro b
  induction b with
  | nil => rfl
  | cons y ys ih =>
    simp only [segCompare, zerosCmp]
    split
    · rfl
    · rw [ih]

theorem segCompare_append_zero_right : ∀ b a, segCompare a (b ++ [0]) = segCompare a b := by
  intro b
  induction b with
  | nil =>
    intro a
    cases a with
    | nil => rfl
    | cons x xs => simp [segCompare, zerosCmp, Nat.not_lt_zero]
  | cons y ys ih =>
    intro a
    cases a with
    | nil =>
      have := ih []
      simp only [segCompare_nil_left] at this ⊢
      simp only [List.cons_append, zerosCmp, List.append_eq, this]
    | cons x xs =>
      simp only [List.cons_append, segCompare, List.append_eq, ih xs]

theorem segCompare_append_zero_left : ∀ a b, segCompare (a ++ [0]) b = segCompare a b := by
  intro a
  induction a with
  | nil =>
    intro b
    cases b with
    | nil => rfl
    | cons y ys => simp [segCompare, zerosCmp, Nat.not_lt_zero]
  | cons x xs ih =>
    intro b
    cases b with
    | nil => simp only [List.cons_append, segCompare, List.append_eq, ih []]
    | cons y ys => simp only [List.cons_append, segCompare, List.append_eq, ih ys]

theorem segCompare_pad_right :
    ∀ (n : Nat) (b a : List Nat), segCompare a (b ++ List.replicate n 0) = segCompare a b := by
  intro n
  induction n with
  | zero => simp
  | succ m ih =>
    intro b a
    rw [List.replicate_succ', ← List.append_assoc, segCompare_append_zero_right, ih]

theorem segCompare_pad_left :
    ∀ (n : Nat) (a b : List Nat), segCompare (a ++ List.replicate n 0) b = segCompare a b := by
  intro n
  induction n with
  | zero => simp
  | succ m ih =>
    intro a b
    rw [List.replicate_succ', ← List.append_assoc, segCompare_append_zero_left, ih]

theorem segCompare_swap_eqlen :
    ∀ a b : List Nat, a.length = b.length → segCompare b a = (segCompare a b).swap := by
  intro a
  induction a with
  | nil =>
    intro b hb
    rw [List.length_nil, eq_comm, List.length_eq_zero] at hb
    subst hb
    rfl
  | cons x xs ih =>
    intro b hb
    cases b with
    | nil => simp at hb
    | cons y ys =>
      simp only [List.length_cons, Nat.succ.injEq] at hb
      simp only [segCompare]
      rcases Nat.lt_trichotomy x y with h | h | h
      · simp [h, Nat.lt_asymm h, Ordering.swap]
      · subst h
        simp [Nat.lt_irrefl, ih ys hb]
      · simp [h, Nat.lt_asymm h, Ordering.swap]

theorem segCompare_le_trans_eqlen :
    ∀ a b c : List Nat, a.length = b.length → b.length = c.length →
      segCompare a b ≠ .gt → segCompare b c ≠ .gt → segCompare a c ≠ .gt := by
  intro a
  induction a with
  | nil =>
    intro b c hab hbc _ _
    rw [List.length_nil, eq_comm, List.length_eq_zero] at hab
    subst hab
    rw [List.length_nil, eq_comm, List.length_eq_zero] at hbc
    subst hbc
    simp [segCompare, zerosCmp]
  | cons x xs ih =>
    intro b c hab hbc h1 h2
    cases b with
    | nil => simp at hab
    | cons y ys =>
      cases c with
      | nil => simp at hbc
      | cons z zs =>
        simp only [List.length_cons, Nat.succ.injEq] at hab hbc
        simp only [segCompare] at h1 h2 ⊢
        have hyx : ¬ y < x := by
          intro h
          rw [if_neg (by omega), if_pos h] at h1
          exact h1 rfl
        have hzy : ¬ z < y := by
          intro h
          rw [if_neg (by omega), if_pos h] at h2
          exact h2 rfl
        by_cases hxz : x < z
        · simp [hxz]
        · rw [if_neg hxz, if_neg (by omega)]
          have hxy : x = y := by omega
          have hyz : y = z := by omega
          subst hxy
          subst hyz
          rw [if_neg (by omega), if_neg (by omega)] at h1 h2
          exact ih ys zs hab hbc h1 h2

theorem segCompare_swap : ∀ a b, segCompare b a = (segCompare a b).swap := by
  intro a b
  rcases Nat.le_total a.length b.length with h | h
  · have ha : (a ++ List.replicate (b.length - a.length) 0).length = b.length := by
      simp [List.length_append, List.length_replicate]
      omega
    calc segCompare b a
        = segCompare b (a ++ List.replicate (b.length - a.length) 0) := by
          rw [segCompare_pad_right]
      _ = (segCompare (a ++ List.replicate (b.length - a.length) 0) b).swap := by
          rw [segCompare_swap_eqlen _ _ ha]
      _ = (segCompare a b).swap := by rw [segCompare_pad_left]
  · have hb : (b ++ List.replicate (a.length - b.length) 0).length = a.length := by
      simp [List.length_append, List.length_replicate]
      omega
    calc segCompare b a
        = segCompare (b ++ List.replicate (a.length - b.length) 0) a := by
          rw [segCompare_pad_left]
      _ = (segCompare a (b ++ List.replicate (a.length - b.length) 0)).swap :=
          segCompare_swap_eqlen _ _ hb.symm
      _ = (segCompare a b).swap := by rw [segCompare_pad_right]

theorem segCompare_le_trans :
    ∀ a b c, segCompare a b ≠ .gt → segCompare b c ≠ .gt → segCompare a c ≠ .gt := by
  intro a b c h1 h2
  set n := max a.length (max b.length c.length) with hn'
  have la : (a ++ List.replicate (n - a.length) 0).length = n := by
    simp [List.length_append, List.length_replicate]
    omega
  have lb : (b ++ List.replicate (n - b.length) 0).length = n := by
    simp [List.length_append, List.length_replicate]
    omega
  have lc : (c ++ List.replicate (n - c.length) 0).length = n := by
    simp [List.length_append, List.length_replicate]
    omega
  rw [← segCompare_pad_left (n - a.length) a c, ← segCompare_pad_right (n - c.length) c]
  refine segCompare_le_trans_eqlen _ (b ++ List.replicate (n - b.length) 0) _ ?_ ?_ ?_ ?_
  · rw [la, lb]
  · rw [lb, lc]
  · rw [segCompare_pad_left, segCompare_pad_right]
    exact h1
  · rw [segCompare_pad_left, segCompare_pad_right]
    exact h2

instance : Batteries.OrientedCmp segCompare where
  symm x y := (segCompare_swap x y).symm

instance : Batteries.TransCmp segCompare where
  le_trans h1 h2 := segCompare_le_trans _ _ _ h1 h2

instance : Batteries.OrientedCmp TolerantVersion.compare where
  symm x y := (segCompare_swap x.segments y.segments).symm

instance : Batteries.TransCmp TolerantVersion.compare where
  le_trans h1 h2 := segCompare_le_trans _ _ _ h1 h2

theorem compare_refl (v : TolerantVersion) : v.compare v = .eq :=
  Batteries.OrientedCmp.cmp_refl

/-- Specification of the minimum scan: the final candidate is the seed or a
list element; it is strictly below the seed when it is not the seed; nothing
in the pool is strictly below it; and every list element strictly before the
position it was adopted from is strictly above it. -/
theorem foldl_oldStep_spec (l : List TolerantVersion) : ∀ c : TolerantVersion,
    (l.foldl oldStep c = c ∨
      ∃ i : Fin l.length, l.get i = l.foldl oldStep c ∧
        (l.foldl oldStep c).compare c = .lt ∧
        ∀ j : Fin l.length, (j : Nat) < (i : Nat) →
          (l.foldl oldStep c).compare (l.get j) = .lt) ∧
    c.compare (l.foldl oldStep c) ≠ .lt ∧
    ∀ x ∈ l, x.compare (l.foldl oldStep c) ≠ .lt := by
  induction l with
  | nil =>
    intro c
    refine ⟨Or.inl rfl, ?_, ?_⟩
    · simp [List.foldl_nil, compare_refl]
    · simp
  | cons x xs ih =>
    intro c
    rw [List.foldl_cons]
    by_cases hx : x.compare c = .lt
    · have hstep : oldStep c x = x := by simp [oldStep, hx]
      rw [hstep]
      obtain ⟨ha, hb, hc⟩ := ih x
      refine ⟨?_, ?_, ?_⟩
      · right
        rcases ha with heq | ⟨i', hi1, hi2, hi3⟩
        · refine ⟨⟨0, by simp⟩, ?_, ?_, ?_⟩
          · simpa using heq.symm
          · rw [heq]
            exact hx
          · intro j hj
            simp at hj
        · rcases i' with ⟨iv, hiv⟩
          refine ⟨⟨iv + 1, by simpa using hiv⟩, ?_, ?_, ?_⟩
          · simpa using hi1
          · exact Batteries.TransCmp.lt_trans hi2 hx
          · intro j hj
            rcases j with ⟨jv, hjv⟩
            cases jv with
            | zero => exact hi2
            | succ jv' =>
              have : jv' < iv := by simpa using hj
              exact hi3 ⟨jv', by simpa using hjv⟩ this
      · intro hcr
        exact hb (Batteries.TransCmp.lt_trans hx hcr)
      · intro y hy
        rcases List.mem_cons.mp hy with rfl | hy'
        · exact hb
        · exact hc y hy'
    · have hstep : oldStep c x = c := by simp [oldStep, hx]
      rw [hstep]
      obtain ⟨ha, hb, hc⟩ := ih c
      have hcx : c.compare x ≠ .gt := Batteries.OrientedCmp.cmp_ne_gt.mpr hx
      refine ⟨?_, hb, ?_⟩
      · rcases ha with heq | ⟨i', hi1, hi2, hi3⟩
        · exact Or.inl heq
        · right
          rcases i' with ⟨iv, hiv⟩
          refine ⟨⟨iv + 1, by simpa using hiv⟩, ?_, hi2, ?_⟩
          · simpa using hi1
          · intro j hj
            rcases j with ⟨jv, hjv⟩
            cases jv with
            | zero => exact Batteries.TransCmp.lt_le_trans hi2 hcx
            | succ jv' =>
              have : jv' < iv := by simpa using hj
              exact hi3 ⟨jv', by simpa using hjv⟩ this
      · intro y hy
        rcases List.mem_cons.mp hy with rfl | hy'
        · intro hyr
          exact hb (Batteries.TransCmp.le_lt_trans hcx hyr)
        · exact hc y hy'

theorem takeWhile_middle {p : Char → Bool} :
    ∀ a : List Char, (∀ x ∈ a, p x) → ∀ {c : Char}, ¬ p c →
      ∀ r, (a ++ c :: r).takeWhile p = a := by
  intro a
  induction a with
  | nil =>
    intro _ c hc r
    simp [List.takeWhile_cons_of_neg hc]
  | cons x xs ih =>
    intro ha c hc r
    have hx : p x := ha x (by simp)
    simp only [List.cons_append, List.takeWhile_cons_of_pos hx]
    rw [ih (fun y hy => ha y (by simp [hy])) hc r]

theorem dropWhile_middle {p : Char → Bool} :
    ∀ a : List Char, (∀ x ∈ a, p x) → ∀ {c : Char}, ¬ p c →
      ∀ r, (a ++ c :: r).dropWhile p = c :: r := by
  intro a
  induction a with
  | nil =>
    intro _ c hc r
    simp [List.dropWhile_cons_of_neg hc]
  | cons x xs ih =>
    intro ha c hc r
    have hx : p x := ha x (by simp)
    simp only [List.cons_append, List.dropWhile_cons_of_pos hx]
    exact ih (fun y hy => ha y (by simp [hy])) hc r

theorem digitsDot_sound {cs ds rest : List Char} (h : digitsDot cs = some (ds, rest)) :
    cs = ds ++ '.' :: rest ∧ DigitRun ds := by
  unfold digitsDot at h
  by_cases he : (cs.takeWhile Char.isDigit).isEmpty
  · simp [he] at h
  · simp only [he, Bool.false_eq_true, if_false] at h
    cases hdrop : cs.dropWhile Char.isDigit with
    | nil => rw [hdrop] at h; simp at h
    | cons c rest' =>
      rw [hdrop] at h
      by_cases hc : c = '.'
      · subst hc
        simp only [List.head?_cons, List.tail_cons, if_pos rfl, Option.some.injEq,
          Prod.mk.injEq] at h
        obtain ⟨rfl, rfl⟩ := h
        refine ⟨?_, ?_, fun x hx => List.mem_takeWhile_imp hx⟩
        · conv_lhs => rw [← List.takeWhile_append_dropWhile (p := Char.isDigit) (l := cs)]
          rw [hdrop]
        · intro hnil
          rw [hnil] at he
          exact he rfl
      · simp only [List.head?_cons, Option.some.injEq] at h
        rw [if_neg hc] at h
        exact absurd h (by simp)

theorem digitsDot_complete {a : List Char} (ha : DigitRun a) (r : List Char) :
    digitsDot (a ++ '.' :: r) = some (a, r) := by
  obtain ⟨hne, hdig⟩ := ha
  have hdot : ¬ Char.isDigit '.' := by decide
  unfold digitsDot
  rw [takeWhile_middle a hdig hdot r, dropWhile_middle a hdig hdot r]
  have : a.isEmpty = false := by
    cases a with
    | nil => exact absurd rfl hne
    | cons _ _ => rfl
  simp [this]

theorem digitsEnd_sound {cs ds rest : List Char} (h : digitsEnd cs = some (ds, rest)) :
    cs = ds ++ rest ∧ DigitRun ds := by
  unfold digitsEnd at h
  by_cases he : (cs.takeWhile Char.isDigit).isEmpty
  · simp [he] at h
  · simp only [he, Bool.false_eq_true, if_false, Option.some.injEq, Prod.mk.injEq] at h
    obtain ⟨rfl, rfl⟩ := h
    refine ⟨(List.takeWhile_append_dropWhile (p := Char.isDigit) (l := cs)).symm,
      ?_, fun x hx => List.mem_takeWhile_imp hx⟩
    intro hnil
    rw [hnil] at he
    exact he rfl

theorem digitsEnd_complete {a : List Char} (ha : DigitRun a) {r : List Char}
    (hr : r = [] ∨ ∃ c tail, r = c :: tail ∧ ¬ Char.isDigit c) :
    digitsEnd (a ++ r) = some (a, r) := by
  obtain ⟨hne, hdig⟩ := ha
  have hemp : ∀ l : List Char, l = a → l.isEmpty = false := by
    intro l hl
    subst hl
    cases l with
    | nil => exact absurd rfl hne
    | cons _ _ => rfl
  unfold digitsEnd
  rcases hr with rfl | ⟨c, tail, rfl, hc⟩
  · rw [List.append_nil, List.takeWhile_eq_self_iff.mpr hdig,
      List.dropWhile_eq_nil_iff.mpr hdig]
    simp [hemp a rfl]
  · rw [takeWhile_middle a hdig hc tail, dropWhile_middle a hdig hc tail]
    simp [hemp a rfl]

theorem matchSuffix_iff (r : List Char) : matchSuffix r = true ↔ SuffixOk r := by
  cases r with
  | nil => simp [matchSuffix, SuffixOk]
  | cons c tail =>
    simp only [matchSuffix, Bool.and_eq_true, Bool.or_eq_true, beq_iff_eq, List.all_eq_true,
      SuffixOk]
    constructor
    · rintro ⟨hc, htail⟩
      exact Or.inr ⟨c, tail, hc, rfl, htail⟩
    · rintro (h | ⟨c', tail', hc', heq, htail⟩)
      · exact absurd h (List.cons_ne_nil c tail)
      · obtain ⟨rfl, rfl⟩ : c' = c ∧ tail' = tail := by
          injection heq with h1 h2
          exact ⟨h1.symm, h2.symm⟩
        exact ⟨hc', htail⟩

theorem kernelVersionMatch_sound {cs g : List Char} (h : kernelVersionMatch cs = some g) :
    ∃ d1 d2 d3 rest, DigitRun d1 ∧ DigitRun d2 ∧ DigitRun d3 ∧ SuffixOk rest ∧
      cs = d1 ++ '.' :: (d2 ++ '.' :: (d3 ++ rest)) ∧ g = d1 ++ '.' :: (d2 ++ '.' :: d3) := by
  unfold kernelVersionMatch at h
  split at h
  · exact absurd h (by simp)
  · rename_i p1 d1 r1 heq1
    split at h
    · exact absurd h (by simp)
    · rename_i p2 d2 r2 heq2
      split at h
      · exact absurd h (by simp)
      · rename_i p3 d3 r3 heq3
        split at h
        · rename_i hsuf
          obtain ⟨hcs1, hd1⟩ := digitsDot_sound heq1
          obtain ⟨hcs2, hd2⟩ := digitsDot_sound heq2
          obtain ⟨hcs3, hd3⟩ := digitsEnd_sound heq3
          refine ⟨d1, d2, d3, r3, hd1, hd2, hd3, (matchSuffix_iff r3).mp hsuf, ?_, ?_⟩
          · rw [hcs1, hcs2, hcs3]
          · injection h with h'
            exact h'.symm
        · exact absurd h (by simp)

theorem kernelVersionMatch_complete {d1 d2 d3 rest : List Char} (h1 : DigitRun d1)
    (h2 : DigitRun d2) (h3 : DigitRun d3) (hr : SuffixOk rest) :
    kernelVersionMatch (d1 ++ '.' :: (d2 ++ '.' :: (d3 ++ rest)))
      = some (d1 ++ '.' :: (d2 ++ '.' :: d3)) := by
  have hrest : rest = [] ∨ ∃ c tail, rest = c :: tail ∧ ¬ Char.isDigit c := by
    rcases hr with rfl | ⟨c, tail, hc, rfl, -⟩
    · exact Or.inl rfl
    · refine Or.inr ⟨c, tail, rfl, ?_⟩
      rcases hc with rfl | rfl <;> decide
  simp only [kernelVersionMatch, digitsDot_complete h1, digitsDot_complete h2,
    digitsEnd_complete h3 hrest, if_pos ((matchSuffix_iff rest).mpr hr)]

theorem splitDots_cons_ne {c : Char} (hc : c ≠ '.') {rest s : List Char}
    {ss : List (List Char)} (h : splitDots rest = s :: ss) :
    splitDots (c :: rest) = (c :: s) :: ss := by
  simp only [splitDots, if_neg hc, h]

theorem splitDots_append_run :
    ∀ a : List Char, (∀ c ∈ a, c ≠ '.') → ∀ r, splitDots (a ++ '.' :: r) = a :: splitDots r := by
  intro a
  induction a with
  | nil =>
    intro _ r
    simp [splitDots]
  | cons c a' ih =>
    intro ha r
    have hc : c ≠ '.' := ha c (by simp)
    rw [List.cons_append]
    exact splitDots_cons_ne hc (ih (fun x hx => ha x (by simp [hx])) r)

theorem splitDots_run :
    ∀ a : List Char, (∀ c ∈ a, c ≠ '.') → a ≠ [] → splitDots a = [a] := by
  intro a
  induction a with
  | nil =>
    intro _ hne
    exact absurd rfl hne
  | cons c a' ih =>
    intro ha _
    have hc : c ≠ '.' := ha c (by simp)
    cases a' with
    | nil => exact splitDots_cons_ne hc rfl
    | cons d a'' =>
      exact splitDots_cons_ne hc
        (ih (fun x hx => ha x (by simp [hx])) (List.cons_ne_nil d a''))

theorem digit_ne_dot {c : Char} (h : Char.isDigit c) : c ≠ '.' := by
  intro hc
  subst hc
  exact absurd h (by decide)

theorem new_of_runs {d1 d2 d3 : List Char} (h1 : DigitRun d1) (h2 : DigitRun d2)
    (h3 : DigitRun d3) :
    TolerantVersion.new (String.mk (d1 ++ '.' :: (d2 ++ '.' :: d3)))
      = ⟨[natOfDigits d1, natOfDigits d2, natOfDigits d3]⟩ := by
  have hnum : ∀ d : List Char, DigitRun d → chunkIsNumeric d = true := by
    rintro d ⟨hne, hdig⟩
    unfold chunkIsNumeric
    cases d with
    | nil => exact absurd rfl hne
    | cons x xs =>
      simp only [List.isEmpty_cons, Bool.not_false, Bool.true_and, List.all_eq_true]
      exact fun c hc => hdig c hc
  unfold TolerantVersion.new
  have hsplit : splitDots (d1 ++ '.' :: (d2 ++ '.' :: d3)) = [d1, d2, d3] := by
    rw [splitDots_append_run d1 (fun c hc => digit_ne_dot (h1.2 c hc)),
      splitDots_append_run d2 (fun c hc => digit_ne_dot (h2.2 c hc)),
      splitDots_run d3 (fun c hc => digit_ne_dot (h3.2 c hc)) h3.1]
  have hdata : (String.mk (d1 ++ '.' :: (d2 ++ '.' :: d3))).data
      = d1 ++ '.' :: (d2 ++ '.' :: d3) := rfl
  rw [hdata, hsplit]
  simp [List.takeWhile_cons_of_pos, hnum d1 h1, hnum d2 h2, hnum d3 h3]

/-- Success of the parser is exactly acceptance by the (amended) grammar. -/
theorem parseKernelVersion_ok_iff (s : String) :
    (∃ v, parseKernelVersion s = .ok v) ↔ AmendedGrammar s := by
  constructor
  · rintro ⟨v, hv⟩
    unfold parseKernelVersion at hv
    cases hm : kernelVersionMatch s.data with
    | none => rw [hm] at hv; exact absurd hv (by simp)
    | some g =>
      obtain ⟨d1, d2, d3, rest, hd1, hd2, hd3, hr, hcs, -⟩ := kernelVersionMatch_sound hm
      exact ⟨d1, d2, d3, rest, hd1, hd2, hd3, hr, hcs⟩
  · rintro ⟨d1, d2, d3, rest, hd1, hd2, hd3, hr, hcs⟩
    refine ⟨TolerantVersion.new (String.mk (d1 ++ '.' :: (d2 ++ '.' :: d3))), ?_⟩
    unfold parseKernelVersion
    rw [hcs, kernelVersionMatch_complete hd1 hd2 hd3 hr]

/-- Every successful parse carries exactly the first three dot-separated
numeric segments of the input. -/
theorem parseKernelVersion_ok_shape {s : String} {v : TolerantVersion}
    (h : parseKernelVersion s = .ok v) :
    ∃ d1 d2 d3 rest, DigitRun d1 ∧ DigitRun d2 ∧ DigitRun d3 ∧ SuffixOk rest ∧
      s.data = d1 ++ '.' :: (d2 ++ '.' :: (d3 ++ rest)) ∧
      v = ⟨[natOfDigits d1, natOfDigits d2, natOfDigits d3]⟩ := by
  unfold parseKernelVersion at h
  cases hm : kernelVersionMatch s.data with
  | none => rw [hm] at h; exact absurd h (by simp)
  | some g =>
    rw [hm] at h
    obtain ⟨d1, d2, d3, rest, hd1, hd2, hd3, hr, hcs, hg⟩ := kernelVersionMatch_sound hm
    refine ⟨d1, d2, d3, rest, hd1, hd2, hd3, hr, hcs, ?_⟩
    have hv : v = TolerantVersion.new (String.mk g) := by
      simp only [Except.ok.injEq] at h
      exact h.symm
    rw [hv, hg]
    exact new_of_runs hd1 hd2 hd3

theorem filterKernelDirs_cons_err {parentPath : String} {fs : Filesystem} {d : String}
    {ds : List String} {e : FsError}
    (h : fs.isDirEmpty (parentPath ++ "/" ++ d) = .error e) :
    filterKernelDirs parentPath fs (d :: ds)
      = .error (.dirEmptyCheckFailed (parentPath ++ "/" ++ d) e) := by
  simp only [filterKernelDirs, h]

theorem filterKernelDirs_cons_empty {parentPath : String} {fs : Filesystem} {d : String}
    {ds : List String} (h : fs.isDirEmpty (parentPath ++ "/" ++ d) = .ok true) :
    filterKernelDirs parentPath fs (d :: ds) = filterKernelDirs parentPath fs ds := by
  simp only [filterKernelDirs, h]

theorem filterKernelDirs_cons_keep {parentPath : String} {fs : Filesystem} {d : String}
    {ds : List String} (h : fs.isDirEmpty (parentPath ++ "/" ++ d) = .ok false) :
    filterKernelDirs parentPath fs (d :: ds)
      = (filterKernelDirs parentPath fs ds).map (fun l => d :: l) := by
  simp only [filterKernelDirs, h]

theorem filterKernelDirs_ok (parentPath : String) (fs : Filesystem) :
    ∀ (names : List String) (emp : String → Bool),
      (∀ d ∈ names, fs.isDirEmpty (parentPath ++ "/" ++ d) = .ok (emp d)) →
      filterKernelDirs parentPath fs names = .ok (names.filter (fun d => !emp d)) := by
  intro names
  induction names with
  | nil =>
    intro emp _
    rfl
  | cons d ds ih =>
    intro emp h
    have hd := h d (by simp)
    have hds := ih emp (fun x hx => h x (by simp [hx]))
    cases hb : emp d with
    | true =>
      rw [hb] at hd
      rw [filterKernelDirs_cons_empty hd, hds, List.filter_cons, hb]
      rfl
    | false =>
      rw [hb] at hd
      rw [filterKernelDirs_cons_keep hd, hds, List.filter_cons, hb]
      rfl

theorem filterKernelDirs_err (parentPath : String) (fs : Filesystem) :
    ∀ (pre : List String) (d : String) (post : List String) (e : FsError),
      (∀ x ∈ pre, ∃ b, fs.isDirEmpty (parentPath ++ "/" ++ x) = .ok b) →
      fs.isDirEmpty (parentPath ++ "/" ++ d) = .error e →
      filterKernelDirs parentPath fs (pre ++ d :: post)
        = .error (.dirEmptyCheckFailed (parentPath ++ "/" ++ d) e) := by
  intro pre
  induction pre with
  | nil =>
    intro d post e _ hd
    rw [List.nil_append, filterKernelDirs_cons_err hd]
  | cons x pre' ih =>
    intro d post e h hd
    obtain ⟨b, hb⟩ := h x (by simp)
    have hrec := ih d post e (fun y hy => h y (by simp [hy])) hd
    rw [List.cons_append]
    cases b with
    | true => rw [filterKernelDirs_cons_empty hb, hrec]
    | false => rw [filterKernelDirs_cons_keep hb, hrec]; rfl

theorem parseVersions_ok_iff : ∀ (strs : List String) (vs : List TolerantVersion),
    parseVersions strs = .ok vs ↔
      List.Forall₂ (fun s v => parseKernelVersion s = .ok v) strs vs := by
  intro strs
  induction strs with
  | nil =>
    intro vs
    simp only [parseVersions, List.forall₂_nil_left_iff]
    constructor
    · intro h
      injection h with h
      exact h.symm
    · rintro rfl
      rfl
  | cons s ss ih =>
    intro vs
    cases hp : parseKernelVersion s with
    | error e =>
      simp only [parseVersions, hp]
      constructor
      · intro h
        exact absurd h (by simp)
      · intro h
        rcases List.forall₂_cons_left_iff.mp h with ⟨b, l, hb, -, -⟩
        rw [hp] at hb
        exact absurd hb (by simp)
    | ok v =>
      simp only [parseVersions, hp]
      cases hps : parseVersions ss with
      | error e =>
        constructor
        · intro h
          exact absurd h (by simp [Except.map])
        · intro h
          rcases List.forall₂_cons_left_iff.mp h with ⟨b, l, -, hf, rfl⟩
          have := (ih l).mpr hf
          rw [hps] at this
          exact absurd this (by simp)
      | ok ws =>
        constructor
        · intro h
          simp only [Except.map, Option.map] at h
          injection h with h
          subst h
          exact List.Forall₂.cons hp ((ih ws).mp hps)
        · intro h
          rcases List.forall₂_cons_left_iff.mp h with ⟨b, l, hb, hf, rfl⟩
          rw [hp] at hb
          injection hb with hb
          subst hb
          have := (ih l).mpr hf
          rw [hps] at this
          injection this with this
          subst this
          rfl

theorem parseVersions_first_err :
    ∀ (pre : List String) (bad : String) (post : List String) (e : ToolError),
      (∀ p ∈ pre, ∃ v, parseKernelVersion p = .ok v) →
      parseKernelVersion bad = .error e →
      parseVersions (pre ++ bad :: post) = .error e := by
  intro pre
  induction pre with
  | nil =>
    intro bad post e _ hbad
    simp only [List.nil_append, parseVersions, hbad]
  | cons p pre' ih =>
    intro bad post e h hbad
    obtain ⟨v, hv⟩ := h p (by simp)
    simp only [List.cons_append, parseVersions, hv, List.append_eq]
    rw [ih bad post e (fun y hy => h y (by simp [hy])) hbad]
    rfl


/-- C1 (counterexample): the spec's example `"5.15.153.1-2.cm2" → [5,15,153,1]`
fails on the code: the regex captures only three segments, so the parse result
is `[5,15,153]`, which differs from `[5,15,153,1]`. -/
theorem claim1_counterexample :
    parseKernelVersion "5.15.153.1-2.cm2" = .ok ⟨[5, 15, 153]⟩ ∧
    (⟨[5, 15, 153]⟩ : TolerantVersion) ≠ ⟨[5, 15, 153, 1]⟩ :=
  ⟨by decide, by decide⟩

/-- C1 (amended): parsing the example strings yields `[6,11,6]`, `[5,15,153]`,
`[6,6,47]`, and `[6,8,0]` respectively, and `""` and `"fc40"` fail with a
parse error. -/
theorem claim1_parse_examples :
    parseKernelVersion "6.11.6-200.fc40.x86_64" = .ok ⟨[6, 11, 6]⟩ ∧
    parseKernelVersion "5.15.153.1-2.cm2" = .ok ⟨[5, 15, 153]⟩ ∧
    parseKernelVersion "6.6.47.1-1.azl3" = .ok ⟨[6, 6, 47]⟩ ∧
    parseKernelVersion "6.8.0-48-generic" = .ok ⟨[6, 8, 0]⟩ ∧
    parseKernelVersion "" = .error (.parseFailed "") ∧
    parseKernelVersion "fc40" = .error (.parseFailed "fc40") := by
  decide

/-- C2 (counterexample): the claimed acceptance rule ("one or more
dot-separated integer segments…") accepts `"6"`, but the code rejects it:
the regex demands exactly three segments. -/
theorem claim2_counterexample :
    ClaimedGrammar "6" ∧ parseKernelVersion "6" = .error (.parseFailed "6") := by
  constructor
  · refine ⟨[['6']], [], by decide, ?_, Or.inl rfl, by decide⟩
    intro seg hseg
    rw [List.mem_singleton] at hseg
    subst hseg
    exact ⟨by decide, by decide⟩
  · decide

/-- C2 (amended): for every input string the parse succeeds exactly when the
string is three dot-separated non-negative integer segments, optionally
followed by a separator (`.` or `-`) and a trailing suffix of
letters/digits/dots/dashes/underscores reaching the end of the string. -/
theorem claim2_accepts_iff (s : String) :
    (∃ v, parseKernelVersion s = .ok v) ↔ AmendedGrammar s :=
  parseKernelVersion_ok_iff s

/-- C2 (witness): the amended acceptance rule holds of a concrete accepted
string. -/
theorem claim2_witness : AmendedGrammar "6.11.6-200.fc40.x86_64" :=
  (claim2_accepts_iff "6.11.6-200.fc40.x86_64").mp ⟨⟨[6, 11, 6]⟩, by decide⟩

/-- C3: on a non-empty successfully parsed version list, the oldest-version
scan returns an element `m` of the list such that no element compares
strictly less than `m`, and every element strictly before the position `m`
was taken from compares strictly greater — so ties keep the earlier entry. -/
theorem claim3_oldest_min (rootfs : String) (fs : Filesystem) (vs : List TolerantVersion)
    (hvs : GetInstalledKernelVersions rootfs fs = .ok vs) (hne : vs ≠ []) :
    ∃ m, GetOldestInstalledKernelVersion rootfs fs = .ok m ∧
      ∃ i : Fin vs.length, vs.get i = m ∧ (∀ x ∈ vs, x.compare m ≠ .lt) ∧
        ∀ j : Fin vs.length, (j : Nat) < (i : Nat) → m.compare (vs.get j) = .lt := by
  cases vs with
  | nil => exact absurd rfl hne
  | cons v rest =>
    have hold : GetOldestInstalledKernelVersion rootfs fs
        = .ok ((v :: rest).foldl oldStep v) := by
      simp only [GetOldestInstalledKernelVersion, hvs]
    obtain ⟨ha, hb, hc⟩ := foldl_oldStep_spec (v :: rest) v
    refine ⟨(v :: rest).foldl oldStep v, hold, ?_⟩
    rcases ha with heq | ⟨i, hi1, hi2, hi3⟩
    · refine ⟨⟨0, by simp⟩, heq.symm, hc, ?_⟩
      intro j hj
      simp at hj
    · exact ⟨i, hi1, hc, hi3⟩

/-- C3 (witness): the minimum scan on a concrete two-kernel root picks the
version parsed from `5.15.153.1-2.cm2`. -/
theorem claim3_witness :
    ∃ m, GetOldestInstalledKernelVersion "/r" fsTwoKernels = .ok m ∧
      ∃ i : Fin ([(⟨[6, 11, 6]⟩ : TolerantVersion), ⟨[5, 15, 153]⟩]).length,
        ([(⟨[6, 11, 6]⟩ : TolerantVersion), ⟨[5, 15, 153]⟩]).get i = m ∧
        (∀ x ∈ [(⟨[6, 11, 6]⟩ : TolerantVersion), ⟨[5, 15, 153]⟩], x.compare m ≠ .lt) ∧
        ∀ j : Fin ([(⟨[6, 11, 6]⟩ : TolerantVersion), ⟨[5, 15, 153]⟩]).length,
          (j : Nat) < (i : Nat) →
          m.compare (([(⟨[6, 11, 6]⟩ : TolerantVersion), ⟨[5, 15, 153]⟩]).get j) = .lt :=
  claim3_oldest_min "/r" fsTwoKernels [⟨[6, 11, 6]⟩, ⟨[5, 15, 153]⟩] (by decide) (by decide)

/-- C4: the scanner lists `<rootfs>/lib/modules`, wraps a listing failure in
an IO error carrying the cause, returns exactly the entries whose directories
are non-empty (an empty result is not an error), and wraps the failure of an
emptiness check in an IO error carrying the cause. -/
theorem claim4_scanner_spec (rootfs : String) (fs : Filesystem) :
    (∀ e, fs.readDir (rootfs ++ "/lib/modules") = .error e →
      GetInstalledKernelStringVersions rootfs fs
        = .error (.enumerateKernelsFailed (rootfs ++ "/lib/modules") e)) ∧
    (∀ (names : List String) (emp : String → Bool),
      fs.readDir (rootfs ++ "/lib/modules") = .ok names →
      (∀ d ∈ names, fs.isDirEmpty (rootfs ++ "/lib/modules" ++ "/" ++ d) = .ok (emp d)) →
      GetInstalledKernelStringVersions rootfs fs
        = .ok (names.filter (fun d => !emp d))) ∧
    (∀ (pre : List String) (d : String) (post : List String) (e : FsError),
      fs.readDir (rootfs ++ "/lib/modules") = .ok (pre ++ d :: post) →
      (∀ x ∈ pre, ∃ b, fs.isDirEmpty (rootfs ++ "/lib/modules" ++ "/" ++ x) = .ok b) →
      fs.isDirEmpty (rootfs ++ "/lib/modules" ++ "/" ++ d) = .error e →
      GetInstalledKernelStringVersions rootfs fs
        = .error (.dirEmptyCheckFailed (rootfs ++ "/lib/modules" ++ "/" ++ d) e)) := by
  refine ⟨?_, ?_, ?_⟩
  · intro e he
    simp only [GetInstalledKernelStringVersions, he]
  · intro names emp hre hemp
    simp only [GetInstalledKernelStringVersions, hre]
    exact filterKernelDirs_ok _ fs names emp hemp
  · intro pre d post e hre hpre hd
    simp only [GetInstalledKernelStringVersions, hre]
    exact filterKernelDirs_err _ fs pre d post e hpre hd

/-- C4 (witness): on a concrete root whose `6.6.47.1-1.azl3` directory is
empty, the scan keeps only the non-empty entry. -/
theorem claim4_witness :
    GetInstalledKernelStringVersions "/r" fsOneEmptyDir
      = .ok (["6.6.47.1-1.azl3", "5.15.153.1-2.cm2"].filter
          (fun d => !(d == "6.6.47.1-1.azl3"))) :=
  (claim4_scanner_spec "/r" fsOneEmptyDir).2.1 ["6.6.47.1-1.azl3", "5.15.153.1-2.cm2"]
    (fun d => d == "6.6.47.1-1.azl3") (by decide) (by decide)

/-- C5: the guard fails with the no-kernel error exactly on an empty scan
result, succeeds on any non-empty result without inspecting its contents, and
propagates a scanner error unchanged. -/
theorem claim5_guard_spec (rootDir : String) (fs : Filesystem) :
    (GetInstalledKernelStringVersions rootDir fs = .ok [] →
      checkForInstalledKernel rootDir fs = .error .noInstalledKernelFound) ∧
    (∀ ks, GetInstalledKernelStringVersions rootDir fs = .ok ks → ks ≠ [] →
      checkForInstalledKernel rootDir fs = .ok ()) ∧
    (∀ e, GetInstalledKernelStringVersions rootDir fs = .error e →
      checkForInstalledKernel rootDir fs = .error e) := by
  refine ⟨?_, ?_, ?_⟩
  · intro h
    simp only [checkForInstalledKernel, h]
    rfl
  · intro ks h hne
    simp only [checkForInstalledKernel, h]
    cases ks with
    | nil => exact absurd rfl hne
    | cons k ks' => rfl
  · intro e h
    simp only [checkForInstalledKernel, h]

/-- C5 (witness): the guard rejects a concrete root with no kernels. -/
theorem claim5_witness :
    checkForInstalledKernel "/r" fsNoModules = .error .noInstalledKernelFound :=
  (claim5_guard_spec "/r" fsNoModules).1 (by decide)

/-- C6: mapping the scanned strings through the parser fails with the parse
error of the first unparsable entry, propagated unchanged (and hence no
partial list is returned); when every entry parses, the result is exactly the
in-order image of the parser. -/
theorem claim6_parse_propagation (rootfs : String) (fs : Filesystem) :
    (∀ (pre : List String) (bad : String) (post : List String) (e : ToolError),
      GetInstalledKernelStringVersions rootfs fs = .ok (pre ++ bad :: post) →
      (∀ p ∈ pre, ∃ v, parseKernelVersion p = .ok v) →
      parseKernelVersion bad = .error e →
      GetInstalledKernelVersions rootfs fs = .error e) ∧
    (∀ (strs : List String) (vs : List TolerantVersion),
      GetInstalledKernelStringVersions rootfs fs = .ok strs →
      (GetInstalledKernelVersions rootfs fs = .ok vs ↔
        List.Forall₂ (fun s v => parseKernelVersion s = .ok v) strs vs)) := by
  refine ⟨?_, ?_⟩
  · intro pre bad post e hscan hpre hbad
    simp only [GetInstalledKernelVersions, hscan]
    exact parseVersions_first_err pre bad post e hpre hbad
  · intro strs vs hscan
    simp only [GetInstalledKernelVersions, hscan]
    exact parseVersions_ok_iff strs vs

/-- C6 (witness): on a concrete root with one unparsable directory name, the
resolver fails with that entry's parse error. -/
theorem claim6_witness :
    GetInstalledKernelVersions "/r" fsBadName = .error (.parseFailed "fc40") :=
  (claim6_parse_propagation "/r" fsBadName).1 ["6.11.6-200.fc40.x86_64"] "fc40" []
    (.parseFailed "fc40") (by decide)
    (by intro p hp
        rw [List.mem_singleton] at hp
        subst hp
        exact ⟨⟨[6, 11, 6]⟩, by decide⟩)
    (by decide)

/-- C7: an empty parsed version list makes the oldest-version resolver fail
with the empty-inventory error, which is not one of the IO error kinds. -/
theorem claim7_empty_inventory (rootfs : String) (fs : Filesystem) :
    (GetInstalledKernelVersions rootfs fs = .ok [] →
      GetOldestInstalledKernelVersion rootfs fs = .error .noKernelsInImage) ∧
    ToolError.isIOError .noKernelsInImage = false := by
  refine ⟨?_, rfl⟩
  intro h
  simp only [GetOldestInstalledKernelVersion, h]

/-- C7 (witness): a concrete empty root produces the empty-inventory error. -/
theorem claim7_witness :
    GetOldestInstalledKernelVersion "/r" fsNoModules = .error .noKernelsInImage :=
  (claim7_empty_inventory "/r" fsNoModules).1 (by decide)

/-- C8 (counterexample): unparsable host output does not produce a host-query
error: the code returns the parse error unchanged. -/
theorem claim8_counterexample :
    GetBuildHostKernelVersion (.ok "fc40\n") = .error (.parseFailed "fc40") ∧
    ToolError.isHostQueryError (.parseFailed "fc40") = false :=
  ⟨by decide, rfl⟩

/-- C8 (amended): the host query wraps an invocation failure in the
host-query error, and otherwise trims the output and returns the result of
the shared parser — including its parse error when the output is
unparsable. -/
theorem claim8_host_query :
    (∀ e, GetBuildHostKernelVersion (.error e) = .error (.unameFailed e)) ∧
    (∀ s, GetBuildHostKernelVersion (.ok s) = parseKernelVersion (trimSpace s)) := by
  refine ⟨fun e => rfl, fun s => ?_⟩
  simp only [GetBuildHostKernelVersion]
  cases h : parseKernelVersion (trimSpace s) with
  | error e => rfl
  | ok v => rfl

/-- C9: comparison walks the segments pairwise left to right; appending a
trailing `0` on either side never changes a comparison (a missing trailing
segment is treated as `0`, so `[5,15]` equals `[5,15,0]`); and segments
compare by integer magnitude, so `[10]` is greater than `[9]`. -/
theorem claim9_compare_spec :
    (∀ (x y : Nat) (xs ys : List Nat), segCompare (x :: xs) (y :: ys)
        = if x < y then .lt else if y < x then .gt else segCompare xs ys) ∧
    (∀ a b, segCompare (a ++ [0]) b = segCompare a b) ∧
    (∀ a b, segCompare a (b ++ [0]) = segCompare a b) ∧
    TolerantVersion.compare ⟨[5, 15]⟩ ⟨[5, 15, 0]⟩ = .eq ∧
    TolerantVersion.compare ⟨[10]⟩ ⟨[9]⟩ = .gt :=
  ⟨fun _ _ _ _ => rfl, segCompare_append_zero_left,
    fun a b => segCompare_append_zero_right b a, by decide, by decide⟩

/-- C10: every successful parse carries exactly the first three dot-separated
numeric segments of the input; fewer than three leading segments are
rejected; and the fourth number of `5.15.153.1-2.cm2` lands in the discarded
suffix. -/
theorem claim10_three_segments :
    (∀ (s : String) (v : TolerantVersion), parseKernelVersion s = .ok v →
      ∃ d1 d2 d3 rest, DigitRun d1 ∧ DigitRun d2 ∧ DigitRun d3 ∧ SuffixOk rest ∧
        s.data = d1 ++ '.' :: (d2 ++ '.' :: (d3 ++ rest)) ∧
        v = ⟨[natOfDigits d1, natOfDigits d2, natOfDigits d3]⟩) ∧
    parseKernelVersion "6" = .error (.parseFailed "6") ∧
    parseKernelVersion "6.11" = .error (.parseFailed "6.11") ∧
    parseKernelVersion "5.15.153.1-2.cm2" = .ok ⟨[5, 15, 153]⟩ :=
  ⟨fun _ _ h => parseKernelVersion_ok_shape h, by decide, by decide, by decide⟩

/-- C10 (witness): the decomposition exists for a concrete parsed string. -/
theorem claim10_witness :
    ∃ d1 d2 d3 rest, DigitRun d1 ∧ DigitRun d2 ∧ DigitRun d3 ∧ SuffixOk rest ∧
      ("6.8.0-48-generic" : String).data = d1 ++ '.' :: (d2 ++ '.' :: (d3 ++ rest)) ∧
      (⟨[6, 8, 0]⟩ : TolerantVersion) = ⟨[natOfDigits d1, natOfDigits d2, natOfDigits d3]⟩ :=
  claim10_three_segments.1 "6.8.0-48-generic" ⟨[6, 8, 0]⟩ (by decide)
